import Mathlib

/-!
Verification of the omegaconf configuration-tree core against its source.

The development shallowly embeds the data model and the operations of the
repository: `_utils.get_value_kind` (value-kind classification with its
placeholder regex), `DictConfig._validate_get`, `DictConfig._validate_set`,
`DictConfig.__contains__`, `DictConfig._dict_conf_eq`, `OmegaConf.merge`
and the per-resolver result cache installed by `OmegaConf.register_resolver`.

Machinery that lives in repository files absent from the source tree
(`base.py`, `basecontainer.py`, `nodes.py`, `listconfig.py`) - flag
inheritance, `merge_with`, `_item_eq`, value-node unwrapping - is modelled
from the specification; each such definition carries a doc comment saying so.

Strings are modelled as lists of characters; the word-character class of the
placeholder regex is modelled over ASCII.
-/

set_option maxHeartbeats 2000000
set_option linter.unusedVariables false
set_option linter.unreachableTactic false
set_option linter.unusedTactic false

namespace OC

/-- A raw scalar value: `None`, a bool, an integer, or a string. -/
inductive Scalar where
  | snull
  | sbool (b : Bool)
  | sint (n : Int)
  | sstr (s : List Char)
  deriving DecidableEq, Repr

/-- A Python type, as far as the core inspects it: a name and whether the type
is a subclass of `dict` (the escape hatch of `_validate_get`). -/
structure OType where
  tname : String
  dictSub : Bool
  deriving DecidableEq, Repr

/-- `issubclass` as used by `_validate_set`: modelled as type identity
(reflexivity is all the verified properties rely on). -/
def OType.subclass (a b : OType) : Bool := a == b

/-- A node of the configuration tree.  `vnode` is a `ValueNode` holding a raw
scalar (which may be the missing-sentinel string or an interpolation string);
the `dict...` constructors are a `DictConfig` whose content is respectively
`None`, the missing-sentinel, an interpolation string, or a mapping; the
`list...` constructors are the analogous `ListConfig` contents.  Every node
carries its local `readonly` flag; dict nodes carry their `object_type`. -/
inductive CNode where
  | vnode (ro : Option Bool) (v : Scalar)
  | dictNone (ro : Option Bool) (ot : Option OType)
  | dictMissing (ro : Option Bool) (ot : Option OType)
  | dictInterp (ro : Option Bool) (ot : Option OType) (s : List Char)
  | dictOf (ro : Option Bool) (ot : Option OType) (es : List (String × CNode))
  | listNone (ro : Option Bool)
  | listMissing (ro : Option Bool)
  | listInterp (ro : Option Bool) (s : List Char)
  | listOf (ro : Option Bool) (es : List CNode)
  deriving Repr

/-- The characters of the missing-sentinel string `???`. -/
def missingChars : List Char := ['?', '?', '?']

/-- Left brace, written by code point to keep it out of literals. -/
def lbrace : Char := Char.ofNat 123

/-- Right brace, written by code point. -/
def rbrace : Char := Char.ofNat 125

/-- The regex class `\w` (ASCII model): letters, digits, underscore. -/
def isWordChar (c : Char) : Bool := c.isAlpha || c.isDigit || c == '_'

/-- The legal-characters class of the placeholder regex in `get_value_kind`:
word characters, dot, percent, underscore, space, backslash, comma, dash. -/
def isLegalChar (c : Char) : Bool :=
  isWordChar c || c == '.' || c == '%' || c == '_' || c == ' ' ||
    c == '\\' || c == ',' || c == '-'

/-- The lazy part of the placeholder regex: the shortest run of legal
characters followed by a closing brace.  Returns the number of characters
consumed, the closing brace included, or `none` when no such run starts here. -/
def lazyTail : List Char → Option Nat
  | [] => none
  | c :: rest =>
    if c = rbrace then some 1
    else if isLegalChar c then (lazyTail rest).map (· + 1)
    else none

/-- Length of the maximal run of word characters at the head of the string. -/
def countWord : List Char → Nat
  | [] => 0
  | c :: rest => if isWordChar c then countWord rest + 1 else 0

/-- One attempt of the placeholder regex of `get_value_kind` at the head of
the string: dollar, open brace, an optional greedy `\w+:` resolver-name group
(with backtracking into the group when the tail fails), then the lazy
legal-character run up to a closing brace.  Returns the match length. -/
def matchAt : List Char → Option Nat
  | c0 :: c1 :: rest =>
    if c0 = '$' && c1 = lbrace then
      match (if 0 < countWord rest && rest.get? (countWord rest) == some ':' then
               (lazyTail (rest.drop (countWord rest + 1))).map
                 (fun t => 2 + countWord rest + 1 + t)
             else none : Option Nat) with
      | some n => some n
      | none => (lazyTail rest).map (fun t => 2 + t)
    else none
  | _ => none

theorem lazyTail_bounds :
    ∀ (s : List Char) (n : Nat), lazyTail s = some n → 1 ≤ n ∧ n ≤ s.length := by
  intro s
  induction s with
  | nil => intro n h; simp [lazyTail] at h
  | cons c rest ih =>
    intro n h
    rw [lazyTail] at h
    split at h
    · cases h
      simp only [List.length_cons]
      omega
    · split at h
      · rcases hlt : lazyTail rest with _ | m
        · rw [hlt] at h; simp at h
        · rw [hlt] at h
          simp only [Option.map_some'] at h
          cases h
          have := ih m hlt
          simp only [List.length_cons]
          omega
      · simp at h

theorem matchAt_bounds (s : List Char) (n : Nat) (h : matchAt s = some n) :
    1 ≤ n ∧ n ≤ s.length := by
  match s with
  | [] => simp [matchAt] at h
  | [c] => simp [matchAt] at h
  | c0 :: c1 :: rest =>
    rw [matchAt] at h
    split at h
    · split at h
      · rename_i n' hsc
        cases h
        split at hsc
        · rename_i hg
          rcases hmap : lazyTail (rest.drop (countWord rest + 1)) with _ | t
          · rw [hmap] at hsc; simp at hsc
          · rw [hmap] at hsc
            simp only [Option.map_some'] at hsc
            cases hsc
            have hb := lazyTail_bounds _ t hmap
            have hw : countWord rest < rest.length := by
              simp only [Bool.and_eq_true, beq_iff_eq, decide_eq_true_eq] at hg
              obtain ⟨hlt2, -⟩ := List.get?_eq_some.mp hg.2
              exact hlt2
            simp only [List.length_drop] at hb
            simp only [List.length_cons]
            omega
        · simp at hsc
      · rename_i hsc
        rcases hmap : lazyTail rest with _ | t
        · rw [hmap] at h; simp at h
        · rw [hmap] at h
          simp only [Option.map_some'] at h
          cases h
          have hb := lazyTail_bounds _ t hmap
          simp only [List.length_cons]
          omega
    · simp at h

/-- `re.finditer` of the placeholder regex: scan left to right, yield each
match and continue after it, otherwise advance one character.  Returns the
list of matched substrings (the `group(0)` of every match). -/
def pyFindAll (s : List Char) : List (List Char) :=
  match s with
  | [] => []
  | c :: rest =>
    match h : matchAt (c :: rest) with
    | some n => (c :: rest).take n :: pyFindAll ((c :: rest).drop n)
    | none => pyFindAll rest
termination_by s.length
decreasing_by
  · have := matchAt_bounds _ _ h
    simp only [List.length_drop, List.length_cons] at *
    omega
  · simp only [List.length_cons]
    omega

theorem pyFindAll_cons_some (c : Char) (rest : List Char) (n : Nat)
    (h : matchAt (c :: rest) = some n) :
    pyFindAll (c :: rest)
      = (c :: rest).take n :: pyFindAll ((c :: rest).drop n) := by
  rw [pyFindAll]
  split
  · rename_i n' h'
    rw [h] at h'
    cases h'
    rfl
  · rename_i h'
    rw [h] at h'
    cases h'

theorem pyFindAll_cons_none (c : Char) (rest : List Char)
    (h : matchAt (c :: rest) = none) :
    pyFindAll (c :: rest) = pyFindAll rest := by
  rw [pyFindAll]
  split
  · rename_i n' h'
    rw [h] at h'
    cases h'
  · rfl

theorem pyFindAll_length_le (s : List Char) :
    ∀ m ∈ pyFindAll s, m.length ≤ s.length := by
  induction s using pyFindAll.induct with
  | case1 => intro m hm; simp [pyFindAll] at hm
  | case2 c rest n h ih =>
    intro m hm
    rw [pyFindAll_cons_some c rest n h] at hm
    have hb := matchAt_bounds _ _ h
    rcases List.mem_cons.mp hm with h1 | h2
    · subst h1
      simp only [List.length_take, List.length_cons] at *
      omega
    · have := ih m h2
      simp only [List.length_drop, List.length_cons] at *
      omega
  | case3 c rest h ih =>
    intro m hm
    rw [pyFindAll_cons_none c rest h] at hm
    have := ih m hm
    simp only [List.length_cons]
    omega

theorem pyFindAll_whole (s : List Char) (h : matchAt s = some s.length) :
    pyFindAll s = [s] := by
  match s with
  | [] => simp [matchAt] at h
  | c :: rest =>
    rw [pyFindAll_cons_some c rest _ h, List.take_length, List.drop_length]
    simp [pyFindAll]

theorem pyFindAll_single_whole (s m : List Char)
    (h : pyFindAll s = [m]) (hm : s = m) : matchAt s = some s.length := by
  subst hm
  match s with
  | [] => simp [pyFindAll] at h
  | c :: rest =>
    rcases hma : matchAt (c :: rest) with _ | n
    · rw [pyFindAll_cons_none c rest hma] at h
      have hlen := pyFindAll_length_le rest (c :: rest) (by rw [h]; simp)
      simp only [List.length_cons] at hlen
      omega
    · rw [pyFindAll_cons_some c rest n hma] at h
      have hb := matchAt_bounds _ _ hma
      injection h with h1 h2
      have hlen : (c :: rest).length ≤ n := by
        have := congrArg List.length h1
        simp only [List.length_take] at this
        omega
      have hn : n = (c :: rest).length := by
        simp only [List.length_cons] at *
        omega
      exact congrArg some hn

/-- The value-kind enumeration of `_utils.ValueKind`. -/
inductive ValueKind where
  | VALUE
  | MANDATORY_MISSING
  | INTERPOLATION
  | STR_INTERPOLATION
  deriving DecidableEq, Repr

/-- Container content is an unresolved interpolation string.  Modelled from the
spec: `Container._is_interpolation` lives in the absent base.py; per
`DictConfig._set_value` (which is in src/) an interpolation string handed to a
container is stored as the container's whole content. -/
def CNode.isInterpolationNode : CNode → Bool
  | .dictInterp _ _ _ => true
  | .listInterp _ _ => true
  | _ => false

/-- Container content is the missing-sentinel.  Modelled from the spec:
`Container._is_missing` lives in the absent base.py. -/
def CNode.isMissingNode : CNode → Bool
  | .dictMissing _ _ => true
  | .listMissing _ => true
  | _ => false

/-- Modelled from the spec: `_utils._get_value` (which calls
`Container._is_none` of the absent base.py and `ValueNode._value` of the
absent nodes.py): a container with null content reads as `None`, a value node
yields its raw scalar, any other container stays a container and in
particular is never a string. -/
def CNode.rawValue : CNode → Option Scalar
  | .vnode _ v => some v
  | .dictNone _ _ => some .snull
  | .listNone _ => some .snull
  | _ => none

/-- Embeds `_utils.get_value_kind`: container interpolation/missing contents
report MANDATORY_MISSING; after unwrapping, a value equal to the
missing-sentinel reports MANDATORY_MISSING; non-strings are VALUE; otherwise
the placeholder matches of the string decide between VALUE (no match),
INTERPOLATION (exactly one match whose text is the whole string) and
STR_INTERPOLATION. -/
def get_value_kind (v : CNode) : ValueKind :=
  if v.isInterpolationNode then .MANDATORY_MISSING
  else if v.isMissingNode then .MANDATORY_MISSING
  else
    match v.rawValue with
    | some (.sstr s) =>
      if s = missingChars then .MANDATORY_MISSING
      else
        match pyFindAll s with
        | [] => .VALUE
        | [m] => if s = m then .INTERPOLATION else .STR_INTERPOLATION
        | _ :: _ :: _ => .STR_INTERPOLATION
    | _ => .VALUE

/-- The claim's notion of a string that "is exactly one placeholder and
nothing else": the placeholder regex matches at the start and consumes the
entire string. -/
def isWholePlaceholder (s : List Char) : Bool := matchAt s == some s.length

/-- The claim's "contains one or more such placeholders". -/
def hasPlaceholder (s : List Char) : Bool := !(pyFindAll s).isEmpty

/-- Value-kind classification as the specification words it: missing-sentinel
or missing/unresolved-interpolation containers are MANDATORY_MISSING; a string
that is exactly one placeholder and nothing else is INTERPOLATION; a string
with placeholders and anything else is STR_INTERPOLATION; every non-string and
placeholder-free string is VALUE. -/
def specValueKind (v : CNode) : ValueKind :=
  if v.isInterpolationNode || v.isMissingNode then .MANDATORY_MISSING
  else
    match v.rawValue with
    | some (.sstr s) =>
      if s = missingChars then .MANDATORY_MISSING
      else if isWholePlaceholder s then .INTERPOLATION
      else if hasPlaceholder s then .STR_INTERPOLATION
      else .VALUE
    | _ => .VALUE

theorem isWholePlaceholder_findAll (s : List Char)
    (h : isWholePlaceholder s = true) : pyFindAll s = [s] := by
  unfold isWholePlaceholder at h
  exact pyFindAll_whole s (by simpa using h)

theorem gvk_string_case (s : List Char) :
    (match pyFindAll s with
     | [] => ValueKind.VALUE
     | [m] => if s = m then ValueKind.INTERPOLATION else ValueKind.STR_INTERPOLATION
     | _ :: _ :: _ => ValueKind.STR_INTERPOLATION)
    = (if isWholePlaceholder s then ValueKind.INTERPOLATION
       else if hasPlaceholder s then ValueKind.STR_INTERPOLATION
       else ValueKind.VALUE) := by
  rcases hfa : pyFindAll s with _ | ⟨m, _ | ⟨m2, ms⟩⟩
  · have hw : isWholePlaceholder s = false := by
      by_contra hc
      have := isWholePlaceholder_findAll s (by revert hc; cases isWholePlaceholder s <;> simp)
      rw [hfa] at this
      cases this
    have hp : hasPlaceholder s = false := by
      unfold hasPlaceholder
      rw [hfa]
      rfl
    simp [hw, hp]
  · by_cases hsm : s = m
    · subst hsm
      have hw : isWholePlaceholder s = true := by
        unfold isWholePlaceholder
        rw [pyFindAll_single_whole s s hfa rfl]
        exact beq_self_eq_true _
      simp [hw]
    · have hw : isWholePlaceholder s = false := by
        by_contra hc
        have := isWholePlaceholder_findAll s (by revert hc; cases isWholePlaceholder s <;> simp)
        rw [hfa] at this
        injection this with h1 h2
        exact hsm h1.symm
      have hp : hasPlaceholder s = true := by
        unfold hasPlaceholder
        rw [hfa]
        rfl
      simp [hw, hp, hsm]
  · have hw : isWholePlaceholder s = false := by
      by_contra hc
      have := isWholePlaceholder_findAll s (by revert hc; cases isWholePlaceholder s <;> simp)
      rw [hfa] at this
      injection this with h1 h2
      cases h2
    have hp : hasPlaceholder s = true := by
      unfold hasPlaceholder
      rw [hfa]
      rfl
    simp [hw, hp]

/-- C1: value-kind classification is a pure function of the raw value, and
matches the specification's four-way split: MANDATORY_MISSING for the
missing-sentinel and for containers whose content is missing or an unresolved
interpolation, INTERPOLATION for a string that is exactly one placeholder and
nothing else, STR_INTERPOLATION for a string with one or more placeholders
plus other text, and VALUE for every non-string and placeholder-free string. -/
theorem get_value_kind_matches_spec (v : CNode) :
    get_value_kind v = specValueKind v := by
  unfold get_value_kind specValueKind
  by_cases hi : v.isInterpolationNode = true
  · simp [hi]
  · simp only [Bool.not_eq_true] at hi
    by_cases hm : v.isMissingNode = true
    · simp [hi, hm]
    · simp only [Bool.not_eq_true] at hm
      simp only [hi, hm, Bool.or_self, Bool.false_eq_true, if_false]
      rcases hr : v.rawValue with _ | ⟨_ | b | n | s⟩ <;> try rfl
      by_cases hms : s = missingChars
      · simp [hms]
      · simp only [hms, if_false]
        exact gvk_string_case s

/-- Three-valued flag resolution.  Modelled from the spec: `Node._get_flag`
(base.py absent from src/) returns a locally set flag, otherwise the value
resolved along the parent chain. -/
def resolveFlag : Option Bool → Option Bool → Option Bool
  | some b, _ => some b
  | none, inh => inh

/-- The local `readonly` flag of a node. -/
def CNode.localRO : CNode → Option Bool
  | .vnode r _ => r
  | .dictNone r _ => r
  | .dictMissing r _ => r
  | .dictInterp r _ _ => r
  | .dictOf r _ _ => r
  | .listNone r => r
  | .listMissing r => r
  | .listInterp r _ => r
  | .listOf r _ => r

/-- The error kinds of the embedded operations (errors.py is absent from
src/; the kinds are those raised or caught by the embedded code). -/
inductive PyErr where
  | attributeError
  | keyValidationError
  | readonlyConfigError
  | validationError
  | typeError
  | valueError
  | keyError
  | missingMandatoryValue
  | unsupportedInterpolationType
  deriving DecidableEq, Repr

/-- The DictConfig metadata consulted by get/set validation: `object_type`
plus the local `struct`/`readonly` flags and the values those flags resolve
to at the parent (flag inheritance per the spec, base.py absent). -/
structure DictMeta where
  objectType : Option OType
  structLocal : Option Bool
  structInh : Option Bool
  roLocal : Option Bool
  roInh : Option Bool
  deriving DecidableEq, Repr

/-- The `struct` flag as `Node._get_flag` resolves it on this container. -/
def DictMeta.structResolved (m : DictMeta) : Option Bool :=
  resolveFlag m.structLocal m.structInh

/-- The `readonly` flag as `Node._get_flag` resolves it on this container. -/
def DictMeta.roResolved (m : DictMeta) : Option Bool :=
  resolveFlag m.roLocal m.roInh

/-- Content lookup in the ordered key-to-node mapping of a DictConfig. -/
def lookupEntry : List (String × CNode) → String → Option CNode
  | [], _ => none
  | (k, v) :: rest, key => if k = key then some v else lookupEntry rest key

/-- `object_type` is a subclass of `dict`. -/
def otDictSub : Option OType → Bool
  | some t => t.dictSub
  | none => false

/-- Embeds `DictConfig._validate_get`: on an absent key, a typed container
escapes when its own struct flag is explicitly False or its `object_type` is
a subclass of dict; otherwise a typed container, or one whose struct flag
resolves true, raises the unknown-key AttributeError. -/
def validate_get (m : DictMeta) (present : Bool) : Except PyErr Unit :=
  if present then .ok ()
  else if m.objectType.isSome
      && (m.structLocal == some false || otDictSub m.objectType) then .ok ()
  else if m.objectType.isSome || m.structResolved == some true then
    .error .attributeError
  else .ok ()

/-- The claim's condition for the unknown-key failure: the key is absent, the
container is typed or its struct flag resolves true, its own struct flag is
not explicitly False, and its `object_type` is not a subclass of dict. -/
def specGetErrCond (m : DictMeta) (present : Bool) : Prop :=
  present = false
  ∧ (m.objectType.isSome = true ∨ m.structResolved = some true)
  ∧ m.structLocal ≠ some false
  ∧ otDictSub m.objectType = false

/-- C5: reading an absent key fails with the unknown-key error exactly when
the container is typed (`object_type` set) or its struct flag resolves true,
except when the node's own struct flag is explicitly False or the container's
`object_type` is a subclass of dict; an untyped, non-struct container never
raises it. -/
theorem validate_get_unknown_key_iff (m : DictMeta) (present : Bool) :
    validate_get m present = .error .attributeError ↔ specGetErrCond m present := by
  obtain ⟨ot, sl, si, rl, ri⟩ := m
  rcases ot with _ | ⟨nm, ds⟩ <;> rcases sl with _ | sb <;> rcases si with _ | ib <;>
    first
    | (cases ds <;> cases present <;>
        simp [validate_get, specGetErrCond, DictMeta.structResolved, resolveFlag, otDictSub])
    | (cases ds <;> cases sb <;> cases present <;>
        simp [validate_get, specGetErrCond, DictMeta.structResolved, resolveFlag, otDictSub])
    | (cases ds <;> cases sb <;> cases ib <;> cases present <;>
        simp [validate_get, specGetErrCond, DictMeta.structResolved, resolveFlag, otDictSub])
    | (cases present <;>
        simp [validate_get, specGetErrCond, DictMeta.structResolved, resolveFlag, otDictSub])
    | (cases sb <;> cases present <;>
        simp [validate_get, specGetErrCond, DictMeta.structResolved, resolveFlag, otDictSub])
    | (cases sb <;> cases ib <;> cases present <;>
        simp [validate_get, specGetErrCond, DictMeta.structResolved, resolveFlag, otDictSub])
    | (cases ib <;> cases present <;>
        simp [validate_get, specGetErrCond, DictMeta.structResolved, resolveFlag, otDictSub])

/-- Embeds `DictConfig.get_node` / `get_node_ex` with no default value: look
the key up in the content mapping, then run `_validate_get`, whose error
propagates because no default was supplied. -/
def get_node (m : DictMeta) (es : List (String × CNode)) (key : String) :
    Except PyErr (Option CNode) :=
  match validate_get m (lookupEntry es key).isSome with
  | .error e => .error e
  | .ok _ => .ok (lookupEntry es key)

theorem validate_get_err (m : DictMeta) (p : Bool) (e : PyErr)
    (h : validate_get m p = .error e) : e = .attributeError := by
  unfold validate_get at h
  split at h
  · cases h
  · split at h
    · cases h
    · split at h
      · injection h with h1
        exact h1.symm
      · cases h

theorem get_node_err (m : DictMeta) (es : List (String × CNode)) (key : String)
    (e : PyErr) (h : get_node m es key = .error e) : e = .attributeError := by
  unfold get_node at h
  split at h
  · rename_i e' h'
    injection h with h1
    subst h1
    exact validate_get_err _ _ _ h'
  · cases h

/-- Embeds the inner `get_type` helper of `DictConfig._validate_set`: a
DictConfig yields its `object_type`; every other value yields its runtime
type (scalar types for raw values, the list-container type for ListConfig). -/
def getType : CNode → Option OType
  | .dictNone _ t => t
  | .dictMissing _ t => t
  | .dictInterp _ t _ => t
  | .dictOf _ t _ => t
  | .vnode _ .snull => some ⟨"NoneType", false⟩
  | .vnode _ (.sbool _) => some ⟨"bool", false⟩
  | .vnode _ (.sint _) => some ⟨"int", false⟩
  | .vnode _ (.sstr _) => some ⟨"str", false⟩
  | .listNone _ => some ⟨"ListConfig", false⟩
  | .listMissing _ => some ⟨"ListConfig", false⟩
  | .listInterp _ _ => some ⟨"ListConfig", false⟩
  | .listOf _ _ => some ⟨"ListConfig", false⟩

/-- The `is_typed` helper of `DictConfig._validate_set`: a DictConfig whose
`object_type` is set. -/
def isTypedDict : CNode → Bool
  | .dictNone _ t => t.isSome
  | .dictMissing _ t => t.isSome
  | .dictInterp _ t _ => t.isSome
  | .dictOf _ t _ => t.isSome
  | _ => false

/-- Python equality of an assigned value with the string `???`: true for the
raw string and for a ValueNode holding it (ValueNode equality compares raw
values; nodes.py is absent from src/, this case is modelled from the spec),
false for containers and every other value. -/
def pyEqMissing : CNode → Bool
  | .vnode _ (.sstr s) => s == missingChars
  | _ => false

/-- The assigned value is the Python `None` object itself. -/
def isNoneValue : CNode → Bool
  | .vnode _ .snull => true
  | _ => false

/-- Embeds `DictConfig._validate_set`: look the target up with `get_node`
(whose unknown-key error propagates), return immediately when the assigned
value equals `???`, then check the resolved readonly flag of the target child
(when one exists) or of the container (when the key is absent), and finally,
for a typed DictConfig target, enforce the subclass rule on the value's type,
with `None` assignments exempt. -/
def validate_set (m : DictMeta) (es : List (String × CNode)) (key : String)
    (value : CNode) : Except PyErr Unit :=
  match get_node m es key with
  | .error e => .error e
  | .ok target =>
    if pyEqMissing value then .ok ()
    else
      match target with
      | some t =>
        if resolveFlag t.localRO m.roResolved == some true then
          .error .readonlyConfigError
        else if !isTypedDict t then .ok ()
        else
          match getType t, getType value with
          | some tt, some vt =>
            if isNoneValue value then .ok ()
            else if !OType.subclass vt tt then .error .validationError
            else .ok ()
          | _, _ => .ok ()
      | none =>
        if m.roResolved == some true then .error .readonlyConfigError
        else .ok ()

/-- C4 counterexample: a DictConfig whose readonly flag resolves true accepts
`set` of the missing-sentinel string without raising ReadonlyConfigError, so
`set` does not fail for every key and every value. -/
theorem validate_set_readonly_counterexample :
    DictMeta.roResolved ⟨none, none, none, some true, none⟩ = some true
    ∧ validate_set ⟨none, none, none, some true, none⟩
        [("a", .vnode none (.sint 1))] "a" (.vnode none (.sstr missingChars))
      = .ok () := by
  constructor
  · rfl
  · rfl

/-- C4 (amended): for every assigned value other than the missing-sentinel
`???`, when the key lookup itself passes access validation, set-validation
fails with ReadonlyConfigError whenever the readonly flag resolves true on
the target child (when one exists) or on the container (when the key is
absent), before any mutation. -/
theorem validate_set_readonly_amended (m : DictMeta) (es : List (String × CNode))
    (key : String) (value : CNode) (hv : pyEqMissing value = false) :
    (∀ t, get_node m es key = .ok (some t) →
        resolveFlag t.localRO m.roResolved = some true →
        validate_set m es key value = .error .readonlyConfigError)
    ∧ (get_node m es key = .ok none → m.roResolved = some true →
        validate_set m es key value = .error .readonlyConfigError) := by
  unfold validate_set
  constructor
  · intro t hg hro
    rw [hg]
    simp [hv, hro]
  · intro hg hro
    rw [hg]
    simp [hv, hro]

/-- C4 amended, witness: a concrete readonly container rejects a concrete
non-sentinel assignment with ReadonlyConfigError. -/
theorem validate_set_readonly_amended_witness :
    pyEqMissing (CNode.vnode none (.sint 2)) = false
    ∧ validate_set ⟨none, none, none, some true, none⟩ [] "k"
        (.vnode none (.sint 2)) = .error .readonlyConfigError := by
  refine ⟨by decide, ?_⟩
  exact (validate_set_readonly_amended ⟨none, none, none, some true, none⟩ [] "k"
    (.vnode none (.sint 2)) (by decide)).2 (by rfl) (by decide)

/-- C10: assigning the literal missing-sentinel string `???` short-circuits
set-validation before the readonly and type-compatibility checks: whatever
the flags, the target and the container type, the result is never
ReadonlyConfigError and never ValidationError. -/
theorem validate_set_missing_bypasses (m : DictMeta) (es : List (String × CNode))
    (key : String) (r : Option Bool) :
    validate_set m es key (.vnode r (.sstr missingChars))
      ≠ .error .readonlyConfigError
    ∧ validate_set m es key (.vnode r (.sstr missingChars))
      ≠ .error .validationError := by
  have hm : pyEqMissing (.vnode r (.sstr missingChars)) = true := by
    simp [pyEqMissing]
  unfold validate_set
  cases hg : get_node m es key with
  | error e =>
    have he := get_node_err _ _ _ _ hg
    subst he
    exact ⟨by simp, by simp⟩
  | ok target =>
    simp [hm]

/-- A key as handed to the DictConfig mapping interface. -/
inductive PyKey where
  | kstr (s : String)
  | kint (n : Int)
  deriving DecidableEq, Repr

/-- The `key_type` of a DictConfig: `Any` or `str`.  (An Enum key type
delegates to EnumNode in the absent nodes.py and is outside the modelled
domain.) -/
inductive KeyType where
  | ktAny
  | ktStr
  deriving DecidableEq, Repr

/-- Embeds `DictConfig._s_validate_and_normalize_key` for key_type `Any` and
`str`: a string key normalizes to itself; any other key fails with
KeyValidationError.  For `Any` the str attempt fails first and the subsequent
Enum conversion of a non-enum key also fails - that conversion lives in the
absent nodes.py and is modelled from the spec, which admits only string and
enum keys. -/
def validateNormalizeKey : KeyType → PyKey → Except PyErr PyKey
  | .ktStr, .kstr s => .ok (.kstr s)
  | .ktStr, _ => .error .keyValidationError
  | .ktAny, .kstr s => .ok (.kstr s)
  | .ktAny, _ => .error .keyValidationError

/-- Modelled from the spec: the outcome of
`BaseContainer._resolve_with_default` (basecontainer.py absent from src/) on
a child node - a resolved scalar, or one of the errors resolution can raise. -/
def ResolveFun := CNode → Except PyErr Scalar

/-- Embeds `DictConfig.__contains__`: the key is validated and normalized
outside any handler, so a key-validation failure propagates; the node lookup
swallows KeyError/AttributeError into absence; a found node is resolved, an
UnsupportedInterpolationType outcome counting as present, a
MissingMandatoryValue or KeyError outcome counting as absent, and any other
resolution error propagating. -/
def pyContains (resolve : ResolveFun) (kt : KeyType) (m : DictMeta)
    (es : List (String × CNode)) (key : PyKey) : Except PyErr Bool :=
  match validateNormalizeKey kt key with
  | .error e => .error e
  | .ok k =>
    let keyS := match k with | .kstr s => s | .kint n => toString n
    let node : Option CNode :=
      match get_node m es keyS with
      | .ok v => v
      | .error _ => none
    match node with
    | none => .ok false
    | some n =>
      match resolve n with
      | .ok _ => .ok true
      | .error .unsupportedInterpolationType => .ok true
      | .error .missingMandatoryValue => .ok false
      | .error .keyError => .ok false
      | .error e => .error e

/-- C6 counterexample: a membership test with an integer key on a str-keyed
DictConfig raises KeyValidationError instead of returning a boolean, so
`contains` does not hold the never-raises guarantee for every key. -/
theorem pyContains_raises_counterexample :
    pyContains (fun _ => .ok .snull) .ktStr ⟨none, none, none, none, none⟩
      [("a", .vnode none (.sint 1))] (.kint 5) = .error .keyValidationError := by
  rfl

/-- The membership answer as the specification words it: false when the key
is absent (or its access raises), true when the found child resolves or its
resolution fails with UnsupportedInterpolationType, false when it fails with
MissingMandatoryValue or a key error. -/
def specContains (resolve : ResolveFun) (m : DictMeta)
    (es : List (String × CNode)) (keyS : String) : Bool :=
  match get_node m es keyS with
  | .error _ => false
  | .ok none => false
  | .ok (some n) =>
    match resolve n with
    | .ok _ => true
    | .error .unsupportedInterpolationType => true
    | .error _ => false

/-- C6 (amended): for every key that passes key validation, and childrens'
resolution outcomes limited to success, MissingMandatoryValue, KeyError and
UnsupportedInterpolationType, `contains` never raises: it returns the boolean
the specification describes (false for absent or missing-resolving keys, true
for resolvable keys and for unresolved interpolations whose resolver is
unregistered). -/
theorem pyContains_never_raises_amended (resolve : ResolveFun) (kt : KeyType)
    (m : DictMeta) (es : List (String × CNode)) (key : PyKey) (k : String)
    (hk : validateNormalizeKey kt key = .ok (.kstr k))
    (hres : ∀ n, resolve n = .error .missingMandatoryValue
        ∨ resolve n = .error .keyError
        ∨ resolve n = .error .unsupportedInterpolationType
        ∨ ∃ v, resolve n = .ok v) :
    pyContains resolve kt m es key = .ok (specContains resolve m es k) := by
  simp only [pyContains, specContains, hk]
  cases hg : get_node m es k with
  | error e => simp [hg]
  | ok node =>
    cases node with
    | none => simp [hg]
    | some n =>
      rcases hres n with h | h | h | ⟨v, h⟩ <;> simp [hg, h]

/-- C6 amended, witness: a concrete key holding the missing-sentinel reports
absent without raising. -/
theorem pyContains_never_raises_amended_witness :
    pyContains (fun _ => .error .missingMandatoryValue) .ktAny
      ⟨none, none, none, none, none⟩ [("a", .vnode none (.sstr missingChars))]
      (.kstr "a") = .ok false := by
  exact (pyContains_never_raises_amended
    (fun _ => .error .missingMandatoryValue) .ktAny
    ⟨none, none, none, none, none⟩ [("a", .vnode none (.sstr missingChars))]
    (.kstr "a") "a" (by rfl) (fun n => Or.inl rfl)).trans (by rfl)

/-- Per-item unresolved-representation equality, and with it
`DictConfig._dict_conf_eq` for dict children.  `BaseContainer._item_eq`
(basecontainer.py absent from src/) is modelled from the spec: unresolved
child representations compare structurally, interpolation strings as raw
strings, never resolving anything.  The dict-against-dict branch follows
`_dict_conf_eq` (which is in src/): equal when both contents are null;
unequal when exactly one is; otherwise equal lengths - the key count, zero
for null/missing/interpolation content since `keys()` is empty there - and
every key of the first container present in the second with item-equal
children.  Lists compare lengthwise and elementwise. -/
def item_eq (a b : CNode) : Bool :=
  match a, b with
  | .vnode _ x, .vnode _ y => x == y
  | .dictNone _ _, .dictNone _ _ => true
  | .dictMissing _ _, .dictMissing _ _ => true
  | .dictMissing _ _, .dictInterp _ _ _ => true
  | .dictMissing _ _, .dictOf _ _ es2 => es2.isEmpty
  | .dictInterp _ _ _, .dictMissing _ _ => true
  | .dictInterp _ _ _, .dictInterp _ _ _ => true
  | .dictInterp _ _ _, .dictOf _ _ es2 => es2.isEmpty
  | .dictOf _ _ es1, .dictMissing _ _ => es1.isEmpty
  | .dictOf _ _ es1, .dictInterp _ _ _ => es1.isEmpty
  | .dictOf _ _ es1, .dictOf _ _ es2 =>
    es1.length == es2.length &&
      es1.attach.all fun p =>
        match lookupEntry es2 p.1.1 with
        | some w => item_eq p.1.2 w
        | none => false
  | .listNone _, .listNone _ => true
  | .listMissing _, .listMissing _ => true
  | .listMissing _, .listInterp _ _ => true
  | .listMissing _, .listOf _ ys => ys.isEmpty
  | .listInterp _ _, .listMissing _ => true
  | .listInterp _ _, .listInterp _ _ => true
  | .listInterp _ _, .listOf _ ys => ys.isEmpty
  | .listOf _ xs, .listMissing _ => xs.isEmpty
  | .listOf _ xs, .listInterp _ _ => xs.isEmpty
  | .listOf _ xs, .listOf _ ys =>
    xs.length == ys.length &&
      (xs.zip ys).attach.all fun p => item_eq p.1.1 p.1.2
  | _, _ => false
termination_by sizeOf a
decreasing_by
  · obtain ⟨⟨k, v⟩, hpp⟩ := p
    have hm := List.sizeOf_lt_of_mem hpp
    simp only [CNode.dictOf.sizeOf_spec, Prod.mk.sizeOf_spec] at *
    omega
  · obtain ⟨⟨x, y⟩, hpp⟩ := p
    have hmem := (List.of_mem_zip hpp).1
    have hm := List.sizeOf_lt_of_mem hmem
    simp only [CNode.listOf.sizeOf_spec, Prod.mk.sizeOf_spec] at *
    omega

/-- Embeds `DictConfig._dict_conf_eq`: dict-container equality; the source
function is mutually recursive with the per-item comparison, so it is the
dict-against-dict branch of `item_eq`. -/
def dict_conf_eq (a b : CNode) : Bool := item_eq a b

theorem lookupEntry_mem (es : List (String × CNode)) (k : String) (v : CNode)
    (h : lookupEntry es k = some v) : (k, v) ∈ es := by
  induction es with
  | nil => simp [lookupEntry] at h
  | cons p rest ih =>
    obtain ⟨k', v'⟩ := p
    rw [lookupEntry] at h
    split at h
    · rename_i hk
      injection h with hv
      subst hk
      subst hv
      exact List.mem_cons_self _ _
    · exact List.mem_cons_of_mem _ (ih h)

theorem lookupEntry_mem_keys (es : List (String × CNode)) (k : String) (v : CNode)
    (h : lookupEntry es k = some v) : k ∈ es.map Prod.fst := by
  have := lookupEntry_mem es k v h
  exact List.mem_map_of_mem Prod.fst this

theorem mem_lookupEntry (es : List (String × CNode)) (k : String) (v : CNode)
    (hnd : (es.map Prod.fst).Nodup) (hm : (k, v) ∈ es) :
    lookupEntry es k = some v := by
  induction es with
  | nil => simp at hm
  | cons p rest ih =>
    obtain ⟨k', v'⟩ := p
    rw [List.map_cons, List.nodup_cons] at hnd
    rw [lookupEntry]
    rcases List.mem_cons.mp hm with he | hr
    · injection he with h1 h2
      subst h1
      subst h2
      simp
    · have hk : k' ≠ k := by
        intro hkk
        subst hkk
        exact hnd.1 (List.mem_map.mpr ⟨(k', v), hr, rfl⟩)
      simp only [hk, if_false]
      exact ih hnd.2 hr

theorem keys_lookupEntry_isSome (es : List (String × CNode)) (k : String)
    (hk : k ∈ es.map Prod.fst) : (lookupEntry es k).isSome = true := by
  induction es with
  | nil => simp at hk
  | cons p rest ih =>
    obtain ⟨k', v'⟩ := p
    rw [lookupEntry]
    by_cases he : k' = k
    · simp [he]
    · simp only [he, if_false]
      rw [List.map_cons, List.mem_cons] at hk
      rcases hk with h1 | h2
      · exact absurd h1.symm he
      · exact ih h2

theorem lookupEntry_none_keys (es : List (String × CNode)) (k : String)
    (h : lookupEntry es k = none) : k ∉ es.map Prod.fst := by
  intro hk
  have := keys_lookupEntry_isSome es k hk
  rw [h] at this
  cases this

theorem nodup_subset_len_mem {l1 l2 : List String} (h1 : l1.Nodup) (h2 : l2.Nodup)
    (hsub : ∀ x ∈ l1, x ∈ l2) (hlen : l1.length = l2.length) :
    ∀ x ∈ l2, x ∈ l1 := by
  have hfs : l1.toFinset ⊆ l2.toFinset := by
    intro x hx
    exact List.mem_toFinset.mpr (hsub x (List.mem_toFinset.mp hx))
  have hc1 : l1.toFinset.card = l1.length := List.toFinset_card_of_nodup h1
  have hc2 : l2.toFinset.card = l2.length := List.toFinset_card_of_nodup h2
  have heq : l1.toFinset = l2.toFinset :=
    Finset.eq_of_subset_of_card_le hfs (by omega)
  intro x hx
  exact List.mem_toFinset.mp (heq ▸ List.mem_toFinset.mpr hx)

theorem item_eq_dictOf (r1 t1 es1 r2 t2 es2) :
    item_eq (.dictOf r1 t1 es1) (.dictOf r2 t2 es2)
      = (es1.length == es2.length &&
          es1.attach.all fun p =>
            match lookupEntry es2 p.1.1 with
            | some w => item_eq p.1.2 w
            | none => false) := by
  rw [item_eq]

theorem dict_of_eq_iff (r1 r2 : Option Bool) (t1 t2 : Option OType)
    (es1 es2 : List (String × CNode))
    (hn1 : (es1.map Prod.fst).Nodup) (hn2 : (es2.map Prod.fst).Nodup) :
    item_eq (.dictOf r1 t1 es1) (.dictOf r2 t2 es2) = true
      ↔ (es1.length = es2.length
         ∧ ∀ k, (k ∈ es1.map Prod.fst ∨ k ∈ es2.map Prod.fst) →
             ∃ v w, lookupEntry es1 k = some v ∧ lookupEntry es2 k = some w
                    ∧ item_eq v w = true) := by
  rw [item_eq_dictOf]
  rw [Bool.and_eq_true, beq_iff_eq, List.all_eq_true]
  constructor
  · rintro ⟨hlen, hall⟩
    have hchild : ∀ kv ∈ es1, ∃ w, lookupEntry es2 kv.1 = some w
        ∧ item_eq kv.2 w = true := by
      intro kv hm
      have := hall ⟨kv, hm⟩ (List.mem_attach _ _)
      rcases hl2 : lookupEntry es2 kv.1 with _ | w
      · rw [hl2] at this
        simp at this
      · exact ⟨w, rfl, by rw [hl2] at this; exact this⟩
    have hsub : ∀ x ∈ es1.map Prod.fst, x ∈ es2.map Prod.fst := by
      intro x hx
      obtain ⟨⟨k, v⟩, hm, he⟩ := List.mem_map.mp hx
      simp only at he
      subst he
      obtain ⟨w, hl2, -⟩ := hchild (k, v) hm
      exact lookupEntry_mem_keys es2 k w hl2
    have hlenk : (es1.map Prod.fst).length = (es2.map Prod.fst).length := by
      simp [hlen]
    refine ⟨hlen, ?_⟩
    intro k hk
    have hk1 : k ∈ es1.map Prod.fst := by
      rcases hk with hk | hk
      · exact hk
      · exact nodup_subset_len_mem hn1 hn2 hsub hlenk k hk
    obtain ⟨⟨k', v⟩, hm, he⟩ := List.mem_map.mp hk1
    simp only at he
    subst he
    obtain ⟨w, hl2, hie⟩ := hchild (k', v) hm
    exact ⟨v, w, mem_lookupEntry es1 k' v hn1 hm, hl2, hie⟩
  · rintro ⟨hlen, hall⟩
    refine ⟨hlen, ?_⟩
    rintro ⟨⟨k, v⟩, hm⟩ -
    have hk1 : k ∈ es1.map Prod.fst := List.mem_map_of_mem Prod.fst hm
    obtain ⟨v', w, hl1, hl2, hie⟩ := hall k (Or.inl hk1)
    have hv : v' = v := by
      rw [mem_lookupEntry es1 k v hn1 hm] at hl1
      injection hl1 with h1
      exact h1.symm
    subst hv
    rw [hl2]
    exact hie

/-- Null-content test for a dict node. -/
def isNullDict : CNode → Bool
  | .dictNone _ _ => true
  | _ => false

/-- The node is a DictConfig. -/
def isDictNode : CNode → Bool
  | .dictNone _ _ => true
  | .dictMissing _ _ => true
  | .dictInterp _ _ _ => true
  | .dictOf _ _ _ => true
  | _ => false

/-- The claim's "length" of a dict container: its key count, zero for
null/missing/interpolation content since `keys()` is empty there (modelled
from the spec; the `__len__` of the absent basecontainer.py is the length of
the key view). -/
def dictLen : CNode → Nat
  | .dictOf _ _ es => es.length
  | _ => 0

/-- The keys of a dict node. -/
def dictKeys : CNode → List String
  | .dictOf _ _ es => es.map Prod.fst
  | _ => []

/-- Child lookup through a dict node. -/
def dlookup : CNode → String → Option CNode
  | .dictOf _ _ es, k => lookupEntry es k
  | _, _ => none

/-- Dict-container equality as the claim words it: both contents null, or
equal lengths with item-equal unresolved children at every key of either. -/
def specDictEqCond (a b : CNode) : Prop :=
  (isNullDict a = true ∧ isNullDict b = true)
  ∨ (dictLen a = dictLen b
     ∧ ∀ k, (k ∈ dictKeys a ∨ k ∈ dictKeys b) →
         ∃ v w, dlookup a k = some v ∧ dlookup b k = some w ∧ item_eq v w = true)

/-- The amended characterization: the second disjunct additionally requires
both contents to be non-null. -/
def specDictEqAmendedCond (a b : CNode) : Prop :=
  (isNullDict a = true ∧ isNullDict b = true)
  ∨ (isNullDict a = false ∧ isNullDict b = false
     ∧ dictLen a = dictLen b
     ∧ ∀ k, (k ∈ dictKeys a ∨ k ∈ dictKeys b) →
         ∃ v w, dlookup a k = some v ∧ dlookup b k = some w ∧ item_eq v w = true)

/-- C7 counterexample: a null-content dict and an empty non-null dict satisfy
the claim's characterization (zero lengths agree and there are no keys), yet
the code compares them unequal, because null-ness is separated before length
is consulted. -/
theorem dict_conf_eq_counterexample :
    specDictEqCond (.dictNone none none) (.dictOf none none [])
    ∧ dict_conf_eq (.dictNone none none) (.dictOf none none []) = false := by
  constructor
  · right
    refine ⟨rfl, ?_⟩
    intro k hk
    rcases hk with hk | hk <;> simp [dictKeys] at hk
  · simp [dict_conf_eq, item_eq]

theorem dict_empty_eq_missing_side (es : List (String × CNode)) :
    es.isEmpty = true
      ↔ ((0 : Nat) = es.length
         ∧ ∀ k, (k ∈ ([] : List String) ∨ k ∈ es.map Prod.fst) →
             ∃ v w, (none : Option CNode) = some v ∧ lookupEntry es k = some w
                    ∧ item_eq v w = true) := by
  cases es with
  | nil => simp
  | cons p rest => simp [List.isEmpty]

theorem dict_empty_eq_missing_side_rev (es : List (String × CNode)) :
    es.isEmpty = true
      ↔ (es.length = (0 : Nat)
         ∧ ∀ k, (k ∈ es.map Prod.fst ∨ k ∈ ([] : List String)) →
             ∃ v w, lookupEntry es k = some v ∧ (none : Option CNode) = some w
                    ∧ item_eq v w = true) := by
  cases es with
  | nil => simp
  | cons p rest => simp [List.isEmpty]

/-- C7 (amended): for dict containers with duplicate-free keys, the code's
dict equality holds iff both contents are null, or both are non-null with
equal lengths and item-equal unresolved child representations at every key
present in either; children compare unresolved (interpolation strings as raw
strings), so equality never resolves and is independent of resolver
availability. -/
theorem dict_conf_eq_iff_amended (a b : CNode)
    (ha : isDictNode a = true) (hb : isDictNode b = true)
    (hna : (dictKeys a).Nodup) (hnb : (dictKeys b).Nodup) :
    dict_conf_eq a b = true ↔ specDictEqAmendedCond a b := by
  unfold dict_conf_eq
  cases a with
  | vnode r v => simp [isDictNode] at ha
  | listNone r => simp [isDictNode] at ha
  | listMissing r => simp [isDictNode] at ha
  | listInterp r s => simp [isDictNode] at ha
  | listOf r es => simp [isDictNode] at ha
  | dictNone r t =>
    cases b with
    | dictNone r2 t2 =>
      simp [item_eq, specDictEqAmendedCond, isNullDict]
    | dictMissing r2 t2 =>
      simp [item_eq, specDictEqAmendedCond, isNullDict]
    | dictInterp r2 t2 s2 =>
      simp [item_eq, specDictEqAmendedCond, isNullDict]
    | dictOf r2 t2 es2 =>
      simp [item_eq, specDictEqAmendedCond, isNullDict]
    | vnode r2 v2 => simp [isDictNode] at hb
    | listNone r2 => simp [isDictNode] at hb
    | listMissing r2 => simp [isDictNode] at hb
    | listInterp r2 s2 => simp [isDictNode] at hb
    | listOf r2 es2 => simp [isDictNode] at hb
  | dictMissing r t =>
    cases b with
    | dictNone r2 t2 =>
      simp [item_eq, specDictEqAmendedCond, isNullDict]
    | dictMissing r2 t2 =>
      simp [item_eq, specDictEqAmendedCond, isNullDict, dictLen, dictKeys]
    | dictInterp r2 t2 s2 =>
      simp [item_eq, specDictEqAmendedCond, isNullDict, dictLen, dictKeys]
    | dictOf r2 t2 es2 =>
      rw [specDictEqAmendedCond]
      simp only [item_eq, isNullDict, dictLen, dictKeys, dlookup]
      rw [dict_empty_eq_missing_side es2]
      simp
    | vnode r2 v2 => simp [isDictNode] at hb
    | listNone r2 => simp [isDictNode] at hb
    | listMissing r2 => simp [isDictNode] at hb
    | listInterp r2 s2 => simp [isDictNode] at hb
    | listOf r2 es2 => simp [isDictNode] at hb
  | dictInterp r t s =>
    cases b with
    | dictNone r2 t2 =>
      simp [item_eq, specDictEqAmendedCond, isNullDict]
    | dictMissing r2 t2 =>
      simp [item_eq, specDictEqAmendedCond, isNullDict, dictLen, dictKeys]
    | dictInterp r2 t2 s2 =>
      simp [item_eq, specDictEqAmendedCond, isNullDict, dictLen, dictKeys]
    | dictOf r2 t2 es2 =>
      rw [specDictEqAmendedCond]
      simp only [item_eq, isNullDict, dictLen, dictKeys, dlookup]
      rw [dict_empty_eq_missing_side es2]
      simp
    | vnode r2 v2 => simp [isDictNode] at hb
    | listNone r2 => simp [isDictNode] at hb
    | listMissing r2 => simp [isDictNode] at hb
    | listInterp r2 s2 => simp [isDictNode] at hb
    | listOf r2 es2 => simp [isDictNode] at hb
  | dictOf r t es1 =>
    cases b with
    | dictNone r2 t2 =>
      simp [item_eq, specDictEqAmendedCond, isNullDict]
    | dictMissing r2 t2 =>
      rw [specDictEqAmendedCond]
      simp only [item_eq, isNullDict, dictLen, dictKeys, dlookup]
      rw [dict_empty_eq_missing_side_rev es1]
      simp
    | dictInterp r2 t2 s2 =>
      rw [specDictEqAmendedCond]
      simp only [item_eq, isNullDict, dictLen, dictKeys, dlookup]
      rw [dict_empty_eq_missing_side_rev es1]
      simp
    | dictOf r2 t2 es2 =>
      rw [dict_of_eq_iff r r2 t t2 es1 es2 hna hnb]
      rw [specDictEqAmendedCond]
      simp [isNullDict, dictLen, dictKeys, dlookup]
    | vnode r2 v2 => simp [isDictNode] at hb
    | listNone r2 => simp [isDictNode] at hb
    | listMissing r2 => simp [isDictNode] at hb
    | listInterp r2 s2 => simp [isDictNode] at hb
    | listOf r2 es2 => simp [isDictNode] at hb

/-- C7 amended, witness: two concrete singleton dicts whose children are raw
interpolation strings compare equal without any resolution. -/
theorem dict_conf_eq_iff_amended_witness :
    isDictNode (.dictOf none none [("r", .vnode none (.sstr ['$']))]) = true
    ∧ specDictEqAmendedCond
        (.dictOf none none [("r", .vnode none (.sstr ['$']))])
        (.dictOf none none [("r", .vnode none (.sstr ['$']))]) := by
  refine ⟨rfl, ?_⟩
  refine (dict_conf_eq_iff_amended
    (.dictOf none none [("r", .vnode none (.sstr ['$']))])
    (.dictOf none none [("r", .vnode none (.sstr ['$']))])
    rfl rfl (by simp [dictKeys]) (by simp [dictKeys])).mp ?_
  simp [dict_conf_eq, item_eq, lookupEntry]

/-- The node is a container (DictConfig or ListConfig), not a ValueNode. -/
def CNode.isContainer : CNode → Bool
  | .vnode _ _ => false
  | _ => true

/-- The `object_type` of a dict node. -/
def CNode.dictOT : CNode → Option OType
  | .dictNone _ t => t
  | .dictMissing _ t => t
  | .dictInterp _ t _ => t
  | .dictOf _ t _ => t
  | _ => none

/-- Replace the value stored at a key, preserving insertion order (appending
when the key is new). -/
def setEntry : List (String × CNode) → String → CNode → List (String × CNode)
  | [], k, v => [(k, v)]
  | (k', v') :: rest, k, v =>
    if k' = k then (k', v) :: rest else (k', v') :: setEntry rest k v

/-- The merge type check of the spec: two schema-typed dicts merge only when
the override's type is the same or a subtype of the accumulator's. -/
def typesCompat : Option OType → Option OType → Bool
  | some ta, some tov => OType.subclass tov ta
  | _, _ => true

/-- The `object_type` of a merged dict: the override's when set, else the
accumulator's. -/
def mergedOT (ta tov : Option OType) : Option OType :=
  match tov with
  | some t => some t
  | none => ta

mutual

/-- Modelled from the spec: the per-shape merge rules of the Merge Engine
(`BaseContainer.merge_with` / `_map_merge`; basecontainer.py and
listconfig.py are absent from src/).  `inh` is the readonly flag resolved at
the parent.  Dict into dict: incompatible schema types fail with
ValidationError; a null override pairs only with a null accumulator
(otherwise ValueError, the undefined null merge); missing-sentinel and
interpolation overrides participate as scalars and replace the content,
guarded by the resolved readonly flag; a mapping override promotes
null/missing/interpolation content and merges key by key into a mapping
accumulator, readonly failing ahead of any write.  List into list: the
override replaces the accumulator wholesale (null again pairing only with
null), guarded by readonly.  Dict against list is a shape mismatch
(TypeError).  Scalar replaces scalar guarded by readonly; scalar against
container cannot arise at the root through the public API and is reported as
a shape mismatch. -/
def mergeInto (inh : Option Bool) (a o : CNode) : Except PyErr CNode :=
  match a, o with
  | .vnode r _, .vnode _ y =>
    if resolveFlag r inh == some true then .error .readonlyConfigError
    else .ok (.vnode r y)
  | .dictNone ra ta, .dictNone _ tov =>
    if !typesCompat ta tov then .error .validationError
    else .ok (.dictNone ra (mergedOT ta tov))
  | .dictMissing _ ta, .dictNone _ tov =>
    if !typesCompat ta tov then .error .validationError
    else .error .valueError
  | .dictInterp _ ta _, .dictNone _ tov =>
    if !typesCompat ta tov then .error .validationError
    else .error .valueError
  | .dictOf _ ta _, .dictNone _ tov =>
    if !typesCompat ta tov then .error .validationError
    else .error .valueError
  | .dictNone ra ta, .dictMissing _ tov =>
    if !typesCompat ta tov then .error .validationError
    else if resolveFlag ra inh == some true then .error .readonlyConfigError
    else .ok (.dictMissing ra (mergedOT ta tov))
  | .dictMissing ra ta, .dictMissing _ tov =>
    if !typesCompat ta tov then .error .validationError
    else if resolveFlag ra inh == some true then .error .readonlyConfigError
    else .ok (.dictMissing ra (mergedOT ta tov))
  | .dictInterp ra ta _, .dictMissing _ tov =>
    if !typesCompat ta tov then .error .validationError
    else if resolveFlag ra inh == some true then .error .readonlyConfigError
    else .ok (.dictMissing ra (mergedOT ta tov))
  | .dictOf ra ta _, .dictMissing _ tov =>
    if !typesCompat ta tov then .error .validationError
    else if resolveFlag ra inh == some true then .error .readonlyConfigError
    else .ok (.dictMissing ra (mergedOT ta tov))
  | .dictNone ra ta, .dictInterp _ tov s =>
    if !typesCompat ta tov then .error .validationError
    else if resolveFlag ra inh == some true then .error .readonlyConfigError
    else .ok (.dictInterp ra (mergedOT ta tov) s)
  | .dictMissing ra ta, .dictInterp _ tov s =>
    if !typesCompat ta tov then .error .validationError
    else if resolveFlag ra inh == some true then .error .readonlyConfigError
    else .ok (.dictInterp ra (mergedOT ta tov) s)
  | .dictInterp ra ta _, .dictInterp _ tov s =>
    if !typesCompat ta tov then .error .validationError
    else if resolveFlag ra inh == some true then .error .readonlyConfigError
    else .ok (.dictInterp ra (mergedOT ta tov) s)
  | .dictOf ra ta _, .dictInterp _ tov s =>
    if !typesCompat ta tov then .error .validationError
    else if resolveFlag ra inh == some true then .error .readonlyConfigError
    else .ok (.dictInterp ra (mergedOT ta tov) s)
  | .dictNone ra ta, .dictOf _ tov eo =>
    if !typesCompat ta tov then .error .validationError
    else if resolveFlag ra inh == some true then .error .readonlyConfigError
    else .ok (.dictOf ra (mergedOT ta tov) eo)
  | .dictMissing ra ta, .dictOf _ tov eo =>
    if !typesCompat ta tov then .error .validationError
    else if resolveFlag ra inh == some true then .error .readonlyConfigError
    else .ok (.dictOf ra (mergedOT ta tov) eo)
  | .dictInterp ra ta _, .dictOf _ tov eo =>
    if !typesCompat ta tov then .error .validationError
    else if resolveFlag ra inh == some true then .error .readonlyConfigError
    else .ok (.dictOf ra (mergedOT ta tov) eo)
  | .dictOf ra ta ea, .dictOf _ tov eo =>
    if !typesCompat ta tov then .error .validationError
    else if resolveFlag ra inh == some true && !eo.isEmpty then
      .error .readonlyConfigError
    else
      match mergeEntries (resolveFlag ra inh) ea eo with
      | .error e => .error e
      | .ok es => .ok (.dictOf ra (mergedOT ta tov) es)
  | .listNone ra, .listNone _ => .ok (.listNone ra)
  | .listMissing _, .listNone _ => .error .valueError
  | .listInterp _ _, .listNone _ => .error .valueError
  | .listOf _ _, .listNone _ => .error .valueError
  | .listNone ra, .listMissing _ =>
    if resolveFlag ra inh == some true then .error .readonlyConfigError
    else .ok (.listMissing ra)
  | .listMissing ra, .listMissing _ =>
    if resolveFlag ra inh == some true then .error .readonlyConfigError
    else .ok (.listMissing ra)
  | .listInterp ra _, .listMissing _ =>
    if resolveFlag ra inh == some true then .error .readonlyConfigError
    else .ok (.listMissing ra)
  | .listOf ra _, .listMissing _ =>
    if resolveFlag ra inh == some true then .error .readonlyConfigError
    else .ok (.listMissing ra)
  | .listNone ra, .listInterp _ s =>
    if resolveFlag ra inh == some true then .error .readonlyConfigError
    else .ok (.listInterp ra s)
  | .listMissing ra, .listInterp _ s =>
    if resolveFlag ra inh == some true then .error .readonlyConfigError
    else .ok (.listInterp ra s)
  | .listInterp ra _, .listInterp _ s =>
    if resolveFlag ra inh == some true then .error .readonlyConfigError
    else .ok (.listInterp ra s)
  | .listOf ra _, .listInterp _ s =>
    if resolveFlag ra inh == some true then .error .readonlyConfigError
    else .ok (.listInterp ra s)
  | .listNone ra, .listOf _ ys =>
    if resolveFlag ra inh == some true then .error .readonlyConfigError
    else .ok (.listOf ra ys)
  | .listMissing ra, .listOf _ ys =>
    if resolveFlag ra inh == some true then .error .readonlyConfigError
    else .ok (.listOf ra ys)
  | .listInterp ra _, .listOf _ ys =>
    if resolveFlag ra inh == some true then .error .readonlyConfigError
    else .ok (.listOf ra ys)
  | .listOf ra _, .listOf _ ys =>
    if resolveFlag ra inh == some true then .error .readonlyConfigError
    else .ok (.listOf ra ys)
  | _, _ => .error .typeError
termination_by sizeOf o
decreasing_by
  all_goals simp_wf
  all_goals omega

/-- Modelled from the spec: key-by-key folding of a mapping override into a
mapping accumulator (`_map_merge` of the absent basecontainer.py).  `ro` is
the readonly flag resolved on the accumulator container, inherited by its
children.  For every override key in order: when both the accumulator child
and the override value are containers, recurse; otherwise the override value
replaces the child, guarded by the child's resolved readonly flag and, for a
schema-typed target, by the subclass rule of `_validate_set` (assignments of
the missing-sentinel and of None exempt); keys absent from the accumulator
are appended, preserving insertion order. -/
def mergeEntries (ro : Option Bool) (acc : List (String × CNode)) :
    List (String × CNode) → Except PyErr (List (String × CNode))
  | [] => .ok acc
  | (k, ov) :: rest =>
    match lookupEntry acc k with
    | some av =>
      if av.isContainer && ov.isContainer then
        match mergeInto ro av ov with
        | .error e => .error e
        | .ok m => mergeEntries ro (setEntry acc k m) rest
      else
        if resolveFlag av.localRO ro == some true then .error .readonlyConfigError
        else if isTypedDict av && !pyEqMissing ov && !isNoneValue ov then
          match av.dictOT, getType ov with
          | some tt, some vt =>
            if !OType.subclass vt tt then .error .validationError
            else mergeEntries ro (setEntry acc k ov) rest
          | _, _ => mergeEntries ro (setEntry acc k ov) rest
        else mergeEntries ro (setEntry acc k ov) rest
    | none => mergeEntries ro (acc ++ [(k, ov)]) rest
termination_by src => sizeOf src
decreasing_by
  all_goals simp_wf
  all_goals omega

end

/-- Embeds `OmegaConf.merge`: the accumulator starts from the first config (a
deep copy in the code, the value itself in this pure model) and the remaining
configs are folded into it strictly left to right (`merge_with`, modelled
from the spec); the first error aborts the whole invocation. -/
def omegaMerge (base : CNode) (overrides : List CNode) : Except PyErr CNode :=
  match overrides with
  | [] => .ok base
  | o :: rest =>
    match mergeInto none base o with
    | .error e => .error e
    | .ok m => omegaMerge m rest

/-- C2: the n-ary merge is a strict left-to-right fold: merging three configs
in one call equals merging the first two and folding the third into the
result, errors propagating identically. -/
theorem merge_three_left_to_right (c1 c2 c3 : CNode) :
    omegaMerge c1 [c2, c3]
      = (match omegaMerge c1 [c2] with
         | .ok m => omegaMerge m [c3]
         | .error e => .error e) := by
  simp only [omegaMerge]
  cases mergeInto none c1 c2 <;> rfl

/-- Embeds the state discipline of `OmegaConf.merge` for the frame property:
configs live in a store of cells; merge reads the base and override cells,
deep-copies the base into a fresh accumulator (a fresh value in this pure
model), folds the overrides into that accumulator only, and appends the
result as a new cell; no pre-existing cell is written, whether the merge
succeeds or fails. -/
def mergeStore (store : List CNode) (bi : Nat) (ois : List Nat) :
    List CNode × Except PyErr Nat :=
  match store.get? bi with
  | none => (store, .error .keyError)
  | some base =>
    match ois.mapM store.get? with
    | none => (store, .error .keyError)
    | some os =>
      match omegaMerge base os with
      | .ok m => (store ++ [m], .ok store.length)
      | .error e => (store, .error e)

/-- C3: merge never mutates its inputs: after `mergeStore`, every
pre-existing cell of the store holds exactly the config it held before,
whether the merge succeeded or failed. -/
theorem merge_never_mutates_inputs (store : List CNode) (bi : Nat)
    (ois : List Nat) (i : Nat) (hi : i < store.length) :
    (mergeStore store bi ois).1.get? i = store.get? i := by
  unfold mergeStore
  split
  · rfl
  · split
    · rfl
    · split
      · exact List.get?_append hi
      · rfl

/-- C3 witness: a concrete two-cell store is untouched by a merge of its two
configs. -/
theorem merge_never_mutates_inputs_witness :
    (mergeStore [.dictOf none none [("a", .vnode none (.sint 1))],
                 .dictOf none none [("b", .vnode none (.sint 2))]] 0 [1]).1.get? 1
      = [CNode.dictOf none none [("a", .vnode none (.sint 1))],
         .dictOf none none [("b", .vnode none (.sint 2))]].get? 1 := by
  exact merge_never_mutates_inputs _ 0 [1] 1 (by simp)

theorem resolveFlag_ne_true (r inh : Option Bool) (hr : r ≠ some true)
    (hinh : inh ≠ some true) : resolveFlag r inh ≠ some true := by
  cases r with
  | none => simpa [resolveFlag] using hinh
  | some b => simpa [resolveFlag] using hr

theorem typesCompat_refl (t : Option OType) : typesCompat t t = true := by
  cases t with
  | none => rfl
  | some x => simp [typesCompat, OType.subclass]

theorem mergedOT_self (t : Option OType) : mergedOT t t = t := by
  cases t <;> rfl

theorem setEntry_lookup_self (acc : List (String × CNode)) (k : String) (v : CNode)
    (h : lookupEntry acc k = some v) : setEntry acc k v = acc := by
  induction acc with
  | nil => simp [lookupEntry] at h
  | cons p rest ih =>
    obtain ⟨k', v'⟩ := p
    rw [lookupEntry] at h
    rw [setEntry]
    by_cases hk : k' = k
    · simp only [hk, if_true] at h ⊢
      injection h with hv
      rw [hv]
    · simp only [hk, if_false] at h ⊢
      rw [ih h]

theorem mem_zip_self (xs : List CNode) : ∀ p ∈ xs.zip xs, p.1 = p.2 := by
  induction xs with
  | nil => simp
  | cons x rest ih =>
    intro p hp
    rw [List.zip_cons_cons] at hp
    rcases List.mem_cons.mp hp with h | h
    · subst h; rfl
    · exact ih p h

theorem cnode_strong_induction (P : CNode → Prop)
    (h : ∀ a, (∀ b, sizeOf b < sizeOf a → P b) → P a) : ∀ a, P a := by
  have key : ∀ (n : Nat) (a : CNode), sizeOf a ≤ n → P a := by
    intro n
    induction n with
    | zero =>
      intro a ha
      exact h a (fun b hb => absurd (Nat.lt_of_lt_of_le hb ha) (Nat.not_lt_zero _))
    | succ n ih =>
      intro a ha
      exact h a (fun b hb => ih b (by omega))
  intro a
  exact key (sizeOf a) a (Nat.le_refl _)

theorem sizeOf_dict_child (r : Option Bool) (t : Option OType)
    (es : List (String × CNode)) (k : String) (v : CNode) (hm : (k, v) ∈ es) :
    sizeOf v < sizeOf (CNode.dictOf r t es) := by
  have := List.sizeOf_lt_of_mem hm
  simp only [CNode.dictOf.sizeOf_spec, Prod.mk.sizeOf_spec] at *
  omega

theorem sizeOf_list_child (r : Option Bool) (xs : List CNode) (x : CNode)
    (hm : x ∈ xs) : sizeOf x < sizeOf (CNode.listOf r xs) := by
  have := List.sizeOf_lt_of_mem hm
  simp only [CNode.listOf.sizeOf_spec] at *
  omega

/-- Key uniqueness of a key view, decidably. -/
def keysNodup : List String → Bool
  | [] => true
  | k :: rest => !(rest.contains k) && keysNodup rest

theorem keysNodup_iff (l : List String) : keysNodup l = true ↔ l.Nodup := by
  induction l with
  | nil => simp [keysNodup]
  | cons k rest ih =>
    rw [keysNodup, Bool.and_eq_true, List.nodup_cons, ih]
    simp [List.elem_iff]

/-- Well-formedness of a config tree: keys within every dict are unique (the
spec's invariant for MapContainer). -/
def nodeWF : CNode → Bool
  | .dictOf _ _ es =>
    keysNodup (es.map Prod.fst) && es.attach.all fun p => nodeWF p.1.2
  | .listOf _ xs => xs.attach.all fun p => nodeWF p.1
  | _ => true
termination_by a => sizeOf a
decreasing_by
  · obtain ⟨⟨k, v⟩, hpp⟩ := p
    have hm := List.sizeOf_lt_of_mem hpp
    simp only [CNode.dictOf.sizeOf_spec, Prod.mk.sizeOf_spec] at *
    omega
  · obtain ⟨x, hpp⟩ := p
    have hm := List.sizeOf_lt_of_mem hpp
    simp only [CNode.listOf.sizeOf_spec] at *
    omega

/-- The claim's "non-readonly config": no node of the tree sets its local
readonly flag to true. -/
def noReadonly : CNode → Bool
  | .vnode r _ => r != some true
  | .dictNone r _ => r != some true
  | .dictMissing r _ => r != some true
  | .dictInterp r _ _ => r != some true
  | .dictOf r _ es =>
    r != some true && es.attach.all fun p => noReadonly p.1.2
  | .listNone r => r != some true
  | .listMissing r => r != some true
  | .listInterp r _ => r != some true
  | .listOf r xs => r != some true && xs.attach.all fun p => noReadonly p.1
termination_by a => sizeOf a
decreasing_by
  · obtain ⟨⟨k, v⟩, hpp⟩ := p
    have hm := List.sizeOf_lt_of_mem hpp
    simp only [CNode.dictOf.sizeOf_spec, Prod.mk.sizeOf_spec] at *
    omega
  · obtain ⟨x, hpp⟩ := p
    have hm := List.sizeOf_lt_of_mem hpp
    simp only [CNode.listOf.sizeOf_spec] at *
    omega

theorem nodeWF_dictOf (r : Option Bool) (t : Option OType)
    (es : List (String × CNode)) :
    nodeWF (.dictOf r t es) = true
      ↔ keysNodup (es.map Prod.fst) = true ∧ ∀ p ∈ es, nodeWF p.2 = true := by
  rw [nodeWF, Bool.and_eq_true, List.all_eq_true]
  constructor
  · rintro ⟨h1, h2⟩
    exact ⟨h1, fun p hp => h2 ⟨p, hp⟩ (List.mem_attach _ _)⟩
  · rintro ⟨h1, h2⟩
    exact ⟨h1, fun p _ => h2 p.1 p.2⟩

theorem nodeWF_listOf (r : Option Bool) (xs : List CNode) :
    nodeWF (.listOf r xs) = true ↔ ∀ x ∈ xs, nodeWF x = true := by
  rw [nodeWF, List.all_eq_true]
  constructor
  · intro h x hx
    exact h ⟨x, hx⟩ (List.mem_attach _ _)
  · intro h p _
    exact h p.1 p.2

theorem noReadonly_dictOf (r : Option Bool) (t : Option OType)
    (es : List (String × CNode)) :
    noReadonly (.dictOf r t es) = true
      ↔ r ≠ some true ∧ ∀ p ∈ es, noReadonly p.2 = true := by
  rw [noReadonly, Bool.and_eq_true, List.all_eq_true, bne_iff_ne]
  constructor
  · rintro ⟨h1, h2⟩
    exact ⟨h1, fun p hp => h2 ⟨p, hp⟩ (List.mem_attach _ _)⟩
  · rintro ⟨h1, h2⟩
    exact ⟨h1, fun p _ => h2 p.1 p.2⟩

theorem noReadonly_listOf (r : Option Bool) (xs : List CNode) :
    noReadonly (.listOf r xs) = true
      ↔ r ≠ some true ∧ ∀ x ∈ xs, noReadonly x = true := by
  rw [noReadonly, Bool.and_eq_true, List.all_eq_true, bne_iff_ne]
  constructor
  · rintro ⟨h1, h2⟩
    exact ⟨h1, fun x hx => h2 ⟨x, hx⟩ (List.mem_attach _ _)⟩
  · rintro ⟨h1, h2⟩
    exact ⟨h1, fun p _ => h2 p.1 p.2⟩

theorem noReadonly_localRO (a : CNode) (h : noReadonly a = true) :
    a.localRO ≠ some true := by
  cases a <;>
    first
    | (rw [noReadonly, bne_iff_ne] at h; simpa [CNode.localRO] using h)
    | (rw [noReadonly, Bool.and_eq_true, bne_iff_ne] at h
       simpa [CNode.localRO] using h.1)

theorem item_eq_listOf (r1 : Option Bool) (xs : List CNode) (r2 : Option Bool)
    (ys : List CNode) :
    item_eq (.listOf r1 xs) (.listOf r2 ys)
      = (xs.length == ys.length
          && (xs.zip ys).attach.all fun p => item_eq p.1.1 p.1.2) := by
  rw [item_eq]

theorem item_eq_refl : ∀ a : CNode, nodeWF a = true → item_eq a a = true := by
  refine cnode_strong_induction _ ?_
  intro a ih hwf
  cases a with
  | vnode r v => simp [item_eq]
  | dictNone r t => simp [item_eq]
  | dictMissing r t => simp [item_eq]
  | dictInterp r t s => simp [item_eq]
  | listNone r => simp [item_eq]
  | listMissing r => simp [item_eq]
  | listInterp r s => simp [item_eq]
  | dictOf r t es =>
    obtain ⟨hnd, hch⟩ := (nodeWF_dictOf r t es).mp hwf
    rw [item_eq_dictOf, Bool.and_eq_true, List.all_eq_true]
    refine ⟨by simp, ?_⟩
    rintro ⟨⟨k, v⟩, hm⟩ -
    have hl : lookupEntry es k = some v :=
      mem_lookupEntry es k v ((keysNodup_iff _).mp hnd) hm
    simp only [hl]
    exact ih v (sizeOf_dict_child r t es k v hm) (hch (k, v) hm)
  | listOf r xs =>
    have hch := (nodeWF_listOf r xs).mp hwf
    rw [item_eq_listOf, Bool.and_eq_true, List.all_eq_true]
    refine ⟨by simp, ?_⟩
    rintro ⟨⟨x, y⟩, hm⟩ -
    have hxy : x = y := mem_zip_self xs (x, y) hm
    subst hxy
    have hx : x ∈ xs := (List.of_mem_zip hm).1
    exact ih x (sizeOf_list_child r xs x hx) (hch x hx)

theorem isTypedDict_not_container (a : CNode) (h : a.isContainer = false) :
    isTypedDict a = false := by
  cases a <;> simp [CNode.isContainer, isTypedDict] at *

theorem mergeEntries_self_inv (ro : Option Bool) (hro : ro ≠ some true) :
    ∀ (src acc : List (String × CNode)),
      (∀ p ∈ src, lookupEntry acc p.1 = some p.2) →
      (∀ p ∈ src, mergeInto ro p.2 p.2 = .ok p.2) →
      (∀ p ∈ src, p.2.localRO ≠ some true) →
      mergeEntries ro acc src = .ok acc := by
  intro src
  induction src with
  | nil =>
    intro acc h1 h2 h3
    rw [mergeEntries]
  | cons hd rest ih =>
    intro acc h1 h2 h3
    obtain ⟨k, ov⟩ := hd
    rw [mergeEntries]
    have hl : lookupEntry acc k = some ov := h1 (k, ov) (List.mem_cons_self _ _)
    simp only [hl]
    have hset : setEntry acc k ov = acc := setEntry_lookup_self acc k ov hl
    have hrest : mergeEntries ro acc rest = .ok acc :=
      ih acc (fun p hp => h1 p (List.mem_cons_of_mem _ hp))
        (fun p hp => h2 p (List.mem_cons_of_mem _ hp))
        (fun p hp => h3 p (List.mem_cons_of_mem _ hp))
    by_cases hc : ov.isContainer = true
    · have hmi : mergeInto ro ov ov = .ok ov := h2 (k, ov) (List.mem_cons_self _ _)
      simp only [hc, Bool.and_self, if_true, hmi, hset, hrest]
    · have hcf : ov.isContainer = false := by
        revert hc; cases ov.isContainer <;> simp
      have hrf : resolveFlag ov.localRO ro ≠ some true :=
        resolveFlag_ne_true _ _ (h3 (k, ov) (List.mem_cons_self _ _)) hro
      have htd : isTypedDict ov = false := isTypedDict_not_container ov hcf
      simp only [hcf, Bool.false_and, if_false, beq_eq_false_iff_ne.mpr hrf,
        htd, hset, hrest]
      simp

theorem mergeInto_self : ∀ a : CNode, nodeWF a = true → noReadonly a = true →
    ∀ inh, inh ≠ some true → mergeInto inh a a = .ok a := by
  refine cnode_strong_induction _ ?_
  intro a ih hwf hro inh hinh
  cases a with
  | vnode r v =>
    have hr : r ≠ some true := by rwa [noReadonly, bne_iff_ne] at hro
    have hrf := resolveFlag_ne_true r inh hr hinh
    rw [mergeInto]
    simp [beq_eq_false_iff_ne.mpr hrf]
  | dictNone ra ta =>
    rw [mergeInto]
    simp [typesCompat_refl, mergedOT_self]
  | dictMissing ra ta =>
    have hr : ra ≠ some true := by rwa [noReadonly, bne_iff_ne] at hro
    have hrf := resolveFlag_ne_true ra inh hr hinh
    rw [mergeInto]
    simp [typesCompat_refl, mergedOT_self, beq_eq_false_iff_ne.mpr hrf]
  | dictInterp ra ta s =>
    have hr : ra ≠ some true := by rwa [noReadonly, bne_iff_ne] at hro
    have hrf := resolveFlag_ne_true ra inh hr hinh
    rw [mergeInto]
    simp [typesCompat_refl, mergedOT_self, beq_eq_false_iff_ne.mpr hrf]
  | dictOf ra ta es =>
    obtain ⟨hnd, hchwf⟩ := (nodeWF_dictOf ra ta es).mp hwf
    obtain ⟨hra, hchro⟩ := (noReadonly_dictOf ra ta es).mp hro
    have hrf := resolveFlag_ne_true ra inh hra hinh
    have hme : mergeEntries (resolveFlag ra inh) es es = .ok es := by
      refine mergeEntries_self_inv _ hrf es es ?_ ?_ ?_
      · intro p hp
        obtain ⟨k, v⟩ := p
        exact mem_lookupEntry es k v ((keysNodup_iff _).mp hnd) hp
      · intro p hp
        have hlt : sizeOf p.2 < sizeOf (CNode.dictOf ra ta es) := by
          obtain ⟨k, v⟩ := p
          exact sizeOf_dict_child ra ta es k v hp
        exact ih p.2 hlt (hchwf p hp) (hchro p hp) _ hrf
      · intro p hp
        exact noReadonly_localRO p.2 (hchro p hp)
    rw [mergeInto]
    simp [typesCompat_refl, mergedOT_self, beq_eq_false_iff_ne.mpr hrf, hme]
  | listNone ra =>
    rw [mergeInto]
  | listMissing ra =>
    have hr : ra ≠ some true := by rwa [noReadonly, bne_iff_ne] at hro
    have hrf := resolveFlag_ne_true ra inh hr hinh
    rw [mergeInto]
    simp [beq_eq_false_iff_ne.mpr hrf]
  | listInterp ra s =>
    have hr : ra ≠ some true := by rwa [noReadonly, bne_iff_ne] at hro
    have hrf := resolveFlag_ne_true ra inh hr hinh
    rw [mergeInto]
    simp [beq_eq_false_iff_ne.mpr hrf]
  | listOf ra xs =>
    obtain ⟨hra, -⟩ := (noReadonly_listOf ra xs).mp hro
    have hrf := resolveFlag_ne_true ra inh hra hinh
    rw [mergeInto]
    simp [beq_eq_false_iff_ne.mpr hrf]

/-- C8: merging a well-formed, non-readonly config with an identical copy of
itself succeeds and returns the identical tree, which compares equal to the
original under the containers' structural equality: merge(a, a) == a. -/
theorem merge_self_idempotent (a : CNode) (hwf : nodeWF a = true)
    (hro : noReadonly a = true) :
    omegaMerge a [a] = .ok a ∧ item_eq a a = true := by
  have h1 := mergeInto_self a hwf hro none (by simp)
  refine ⟨?_, item_eq_refl a hwf⟩
  simp [omegaMerge, h1]

/-- C8 witness: a concrete one-key config merged with itself. -/
theorem merge_self_idempotent_witness :
    nodeWF (.dictOf none none [("a", .vnode none (.sint 1))]) = true
    ∧ noReadonly (.dictOf none none [("a", .vnode none (.sint 1))]) = true
    ∧ omegaMerge (.dictOf none none [("a", .vnode none (.sint 1))])
        [.dictOf none none [("a", .vnode none (.sint 1))]]
      = .ok (.dictOf none none [("a", .vnode none (.sint 1))])
    ∧ item_eq (.dictOf none none [("a", .vnode none (.sint 1))])
        (.dictOf none none [("a", .vnode none (.sint 1))]) = true := by
  have h1 : nodeWF (.dictOf none none [("a", .vnode none (.sint 1))]) = true := by
    refine (nodeWF_dictOf _ _ _).mpr ⟨by simp [keysNodup], ?_⟩
    intro p hp
    rcases List.mem_singleton.mp hp with rfl
    simp [nodeWF]
  have h2 : noReadonly (.dictOf none none [("a", .vnode none (.sint 1))]) = true := by
    refine (noReadonly_dictOf _ _ _).mpr ⟨by simp, ?_⟩
    intro p hp
    rcases List.mem_singleton.mp hp with rfl
    simp [noReadonly]
  have h3 := merge_self_idempotent _ h1 h2
  exact ⟨h1, h2, h3.1, h3.2⟩

/-- The two-level resolver cache owned by a container: resolver name to (raw
argument string to memoized value).  Embeds the defaultdict held in the
container metadata and returned by `OmegaConf.get_cache`. -/
abbrev Cache := List (String × List (String × Scalar))

/-- Lookup in a per-resolver sub-cache. -/
def subLookup : List (String × Scalar) → String → Option Scalar
  | [], _ => none
  | (k, v) :: rest, key => if k = key then some v else subLookup rest key

/-- `get_cache(config)[name]`: the per-resolver sub-cache, empty when the
name was never seen (defaultdict semantics). -/
def cacheSub : Cache → String → List (String × Scalar)
  | [], _ => []
  | (n, sub) :: rest, name => if n = name then sub else cacheSub rest name

/-- `cache[key] = val` in a sub-cache. -/
def subInsert : List (String × Scalar) → String → Scalar → List (String × Scalar)
  | [], k, v => [(k, v)]
  | (k', v') :: rest, k, v =>
    if k' = k then (k', v) :: rest else (k', v') :: subInsert rest k v

/-- Store a value under (resolver name, raw argument string). -/
def cacheInsert : Cache → String → String → Scalar → Cache
  | [], name, key, v => [(name, [(key, v)])]
  | (n, sub) :: rest, name, key, v =>
    if n = name then (n, subInsert sub key v) :: rest
    else (n, sub) :: cacheInsert rest name key v

/-- Two-level lookup. -/
def cacheLookup (c : Cache) (name key : String) : Option Scalar :=
  subLookup (cacheSub c name) key

/-- Embeds the `caching` closure installed by `OmegaConf.register_resolver`
for resolver `name` over underlying function `f` (applied to the raw
argument string; argument tokenization happens inside the resolver call):
look the raw key up in the container's per-name sub-cache, invoke the
resolver only on a miss, and store the value back.  The boolean reports
whether the underlying resolver was invoked. -/
def cachingStep (f : String → Scalar) (c : Cache) (name key : String) :
    Scalar × Cache × Bool :=
  match cacheLookup c name key with
  | some v => (v, cacheInsert c name key v, false)
  | none => (f key, cacheInsert c name key (f key), true)

/-- A sequence of resolutions against one container, through the caching
wrapper: per call the raw key, the produced value and whether the resolver
ran, along with the final cache. -/
def runCalls (f : String → Scalar) (name : String) (c : Cache) :
    List String → List (String × Scalar × Bool) × Cache
  | [] => ([], c)
  | k :: ks =>
    let s := cachingStep f c name k
    let r := runCalls f name s.2.1 ks
    ((k, s.1, s.2.2) :: r.1, r.2)

/-- Number of actual resolver invocations for raw argument `k` in a trace. -/
def countInvoked (rs : List (String × Scalar × Bool)) (k : String) : Nat :=
  (rs.filter fun r => r.1 == k && r.2.2).length

theorem subLookup_insert_self (sub : List (String × Scalar)) (k : String)
    (v : Scalar) : subLookup (subInsert sub k v) k = some v := by
  induction sub with
  | nil => simp [subInsert, subLookup]
  | cons p rest ih =>
    obtain ⟨k', v'⟩ := p
    rw [subInsert]
    by_cases hk : k' = k
    · simp [hk, subLookup]
    · simp only [hk, if_false]
      rw [subLookup]
      simp only [hk, if_false]
      exact ih

theorem subLookup_insert_other (sub : List (String × Scalar)) (k' : String)
    (v : Scalar) (k : String) (h : k' ≠ k) :
    subLookup (subInsert sub k' v) k = subLookup sub k := by
  induction sub with
  | nil => simp [subInsert, subLookup, h]
  | cons p rest ih =>
    obtain ⟨k2, v2⟩ := p
    by_cases hk : k2 = k'
    · subst hk
      simp [subInsert, subLookup, h]
    · by_cases hk2 : k2 = k <;> simp [subInsert, subLookup, hk, hk2, ih, Ne.symm h]

theorem cacheSub_insert_self (c : Cache) (name key : String) (v : Scalar) :
    cacheSub (cacheInsert c name key v) name = subInsert (cacheSub c name) key v := by
  induction c with
  | nil => simp [cacheInsert, cacheSub, subInsert]
  | cons p rest ih =>
    obtain ⟨n, sub⟩ := p
    by_cases hn : n = name <;> simp [cacheInsert, cacheSub, hn, ih]

theorem cacheLookup_insert_self (c : Cache) (name key : String) (v : Scalar) :
    cacheLookup (cacheInsert c name key v) name key = some v := by
  rw [cacheLookup, cacheSub_insert_self]
  exact subLookup_insert_self _ _ _

theorem cacheLookup_insert_otherkey (c : Cache) (name k' : String) (v : Scalar)
    (k : String) (h : k' ≠ k) :
    cacheLookup (cacheInsert c name k' v) name k = cacheLookup c name k := by
  rw [cacheLookup, cacheSub_insert_self, cacheLookup]
  exact subLookup_insert_other _ _ _ _ h

theorem runCalls_cons (f : String → Scalar) (name : String) (c : Cache)
    (k0 : String) (ks : List String) :
    runCalls f name c (k0 :: ks)
      = ((k0, (cachingStep f c name k0).1, (cachingStep f c name k0).2.2)
           :: (runCalls f name (cachingStep f c name k0).2.1 ks).1,
         (runCalls f name (cachingStep f c name k0).2.1 ks).2) := rfl

theorem countInvoked_cons (k0 : String) (v0 : Scalar) (b0 : Bool)
    (rs : List (String × Scalar × Bool)) (k : String) :
    countInvoked ((k0, v0, b0) :: rs) k
      = (if k0 = k ∧ b0 = true then 1 else 0) + countInvoked rs k := by
  rw [countInvoked, countInvoked, List.filter_cons]
  by_cases h : (k0 == k && b0) = true
  · have h2 : k0 = k ∧ b0 = true := by simpa [Bool.and_eq_true, beq_iff_eq] using h
    simp [h, h2]
    omega
  · have h2 : ¬(k0 = k ∧ b0 = true) := by
      intro hcon
      exact h (by simp [hcon.1, hcon.2])
    simp [h, h2]

theorem cachingStep_cached (f : String → Scalar) (c : Cache) (name key : String)
    (v : Scalar) (h : cacheLookup c name key = some v) :
    cachingStep f c name key = (v, cacheInsert c name key v, false) := by
  rw [cachingStep, h]

theorem cachingStep_miss (f : String → Scalar) (c : Cache) (name key : String)
    (h : cacheLookup c name key = none) :
    cachingStep f c name key = (f key, cacheInsert c name key (f key), true) := by
  rw [cachingStep, h]

theorem cachingStep_preserves_other (f : String → Scalar) (c : Cache)
    (name k0 k : String) (hk : k0 ≠ k) :
    cacheLookup (cachingStep f c name k0).2.1 name k = cacheLookup c name k := by
  rw [cachingStep]
  rcases hl0 : cacheLookup c name k0 with _ | w
  · show cacheLookup (cacheInsert c name k0 (f k0)) name k = cacheLookup c name k
    exact cacheLookup_insert_otherkey c name k0 _ k hk
  · show cacheLookup (cacheInsert c name k0 w) name k = cacheLookup c name k
    exact cacheLookup_insert_otherkey c name k0 _ k hk

theorem runCalls_cached (f : String → Scalar) (name k : String) (v : Scalar) :
    ∀ (ks : List String) (c : Cache), cacheLookup c name k = some v →
      countInvoked (runCalls f name c ks).1 k = 0
      ∧ (∀ r ∈ (runCalls f name c ks).1, r.1 = k → r.2.1 = v)
      ∧ cacheLookup (runCalls f name c ks).2 name k = some v := by
  intro ks
  induction ks with
  | nil =>
    intro c hc
    exact ⟨by simp [runCalls, countInvoked], by simp [runCalls], by simpa [runCalls]⟩
  | cons k0 ks ih =>
    intro c hc
    by_cases hk : k0 = k
    · subst hk
      have hstep := cachingStep_cached f c name k0 v hc
      have hc1 : cacheLookup (cacheInsert c name k0 v) name k0 = some v :=
        cacheLookup_insert_self c name k0 v
      obtain ⟨ihc, ihv, ihf⟩ := ih (cacheInsert c name k0 v) hc1
      rw [runCalls_cons, hstep]
      refine ⟨?_, ?_, ?_⟩
      · simp only [countInvoked_cons]
        simpa using ihc
      · intro r hr hrk
        rcases List.mem_cons.mp hr with h1 | h2
        · rw [h1]
        · exact ihv r h2 hrk
      · exact ihf
    · have hc1 : cacheLookup (cachingStep f c name k0).2.1 name k = some v := by
        rw [cachingStep_preserves_other f c name k0 k hk]
        exact hc
      obtain ⟨ihc, ihv, ihf⟩ := ih _ hc1
      rw [runCalls_cons]
      refine ⟨?_, ?_, ?_⟩
      · rw [countInvoked_cons]
        simp [hk, ihc]
      · intro r hr hrk
        rcases List.mem_cons.mp hr with h1 | h2
        · rw [h1] at hrk
          exact absurd hrk hk
        · exact ihv r h2 hrk
      · exact ihf

/-- C9: against one container's cache, a registered resolver's underlying
function runs at most once per raw argument string - never when the pair is
already memoized - the first resolution stores the result under (resolver
name, raw argument string) in the two-level cache, and every resolution of
that argument returns the memoized value. -/
theorem resolver_cache_at_most_once (f : String → Scalar) (name : String)
    (c0 : Cache) (ks : List String) (k : String) :
    countInvoked (runCalls f name c0 ks).1 k
        ≤ (match cacheLookup c0 name k with | some _ => 0 | none => 1)
    ∧ (∀ r ∈ (runCalls f name c0 ks).1, r.1 = k →
        r.2.1 = (cacheLookup c0 name k).getD (f k))
    ∧ (k ∈ ks →
        cacheLookup (runCalls f name c0 ks).2 name k
          = some ((cacheLookup c0 name k).getD (f k))) := by
  induction ks generalizing c0 with
  | nil =>
    refine ⟨by simp [runCalls, countInvoked], by simp [runCalls], ?_⟩
    intro hm
    simp at hm
  | cons k0 ks ih =>
    rcases hc : cacheLookup c0 name k with _ | v
    · by_cases hk : k0 = k
      · subst hk
        have hstep := cachingStep_miss f c0 name k0 hc
        have hc1 : cacheLookup (cacheInsert c0 name k0 (f k0)) name k0
            = some (f k0) := cacheLookup_insert_self c0 name k0 (f k0)
        obtain ⟨rc, rv, rf⟩ := runCalls_cached f name k0 (f k0) ks
          (cacheInsert c0 name k0 (f k0)) hc1
        rw [runCalls_cons, hstep]
        refine ⟨?_, ?_, ?_⟩
        · rw [countInvoked_cons]
          simp [rc]
        · intro r hr hrk
          rcases List.mem_cons.mp hr with h1 | h2
          · rw [h1]
            simp
          · rw [rv r h2 hrk]
            simp
        · intro hm
          simpa using rf
      · have hc1 : cacheLookup (cachingStep f c0 name k0).2.1 name k = none := by
          rw [cachingStep_preserves_other f c0 name k0 k hk]
          exact hc
        obtain ⟨ihc, ihv, ihf⟩ := ih (cachingStep f c0 name k0).2.1
        rw [hc1] at ihc ihv ihf
        rw [runCalls_cons]
        refine ⟨?_, ?_, ?_⟩
        · rw [countInvoked_cons]
          simp only [hc]
          simp [hk]
          simpa using ihc
        · intro r hr hrk
          rcases List.mem_cons.mp hr with h1 | h2
          · rw [h1] at hrk
            exact absurd hrk hk
          · have := ihv r h2 hrk
            simpa using this
        · intro hm
          rcases List.mem_cons.mp hm with h1 | h2
          · exact absurd h1.symm hk
          · have := ihf h2
            simpa using this
    · obtain ⟨rc, rv, rf⟩ := runCalls_cached f name k v (k0 :: ks) c0 hc
      refine ⟨by simp [rc], ?_, ?_⟩
      · intro r hr hrk
        rw [rv r hr hrk]
        rfl
      · intro hm
        rw [rf]
        rfl

/-- C9 witness: resolving the same raw argument twice against an initially
empty cache invokes the resolver at most once and memoizes the value. -/
theorem resolver_cache_at_most_once_witness :
    countInvoked (runCalls (fun _ => Scalar.sint 7) "env" [] ["x", "x"]).1 "x" ≤ 1
    ∧ cacheLookup (runCalls (fun _ => Scalar.sint 7) "env" [] ["x", "x"]).2
        "env" "x" = some (Scalar.sint 7) := by
  have h := resolver_cache_at_most_once (fun _ => Scalar.sint 7) "env" [] ["x", "x"] "x"
  refine ⟨?_, ?_⟩
  · have h1 := h.1
    simpa [cacheLookup, cacheSub, subLookup] using h1
  · have h3 := h.2.2 (by simp)
    simpa [cacheLookup, cacheSub, subLookup] using h3
